import Mathlib

/-!
Verification development for the gobox repository.

This file gives a shallow embedding of the parts of the program that the
checked properties talk about, together with theorems settling those
properties:

* the session engine (`internal/session/session.go`): `SessionRunner`
  and its operations `Start`, `Pause`, `Resume`, `Complete`, `Stop`,
  `isTimeUp`, `TotalElapsed`, `Remaining`, plus the tick worker's body;
* the commit watcher (`GitWatcher` in the same package);
* the state store (`internal/core/state_manager.go`): `RemoveTaskState`
  and a fault-modelled `Save`;
* the timebox parser (`internal/parser/parser.go`): `ParseTimeBox`;
* the task rewriter (`internal/rewrite/scanner.go` and
  `internal/rewrite/update.go`): `MarkTaskAsCompleted` and `isTaskLine`.

Modelling conventions:
* Go `time.Time` values are timestamps in `Int` (the zero `time.Time`
  is `0`); `time.Duration` values are `Int` (nanoseconds where the
  magnitude matters, abstract units elsewhere).
* Go byte strings are `List Char` (the documents handled here are
  treated codepoint-wise; the program itself is byte-oriented but every
  delimiter it inspects is ASCII).
* Channels: the runner's event channel is modelled as the list of
  events an operation emits; the `stopCh` signalling channel is
  modelled by the boolean `stopClosed` (`close(stopCh)` sets it, and
  the `select` guard in `Complete`/`Stop` reads it).
* Each exported operation of `SessionRunner` holds the runner's mutex
  for its whole body, so a concurrent history of calls is equivalent to
  some sequential interleaving; operations are therefore modelled as
  atomic transitions of a step function.
-/

/-- `state.TimeSegment`: one work interval.  `stop` models the Go field
`End *time.Time` (`none` = open segment). -/
structure TimeSegment where
  start : Int
  stop : Option Int
deriving DecidableEq, Repr

/-- `state.TimeBoxState`: the ledger entry for one task. -/
structure TimeBoxState where
  taskHash : String
  segments : List TimeSegment
deriving DecidableEq, Repr

/-- `session.SessionEvent`. -/
inductive SessionEvent where
  | tick
  | paused
  | resumed
  | completed
  | stopped
deriving DecidableEq, Repr

/-- `session.SessionRunner`.  `tickers` counts the `time.NewTicker`
calls made so far (each one also spawns a fresh tick worker goroutine);
`tickerActive` records whether the most recent ticker is still running
(`Ticker.Stop` clears it). -/
structure SessionRunner where
  duration : Int
  endTime : Int
  paused : Bool
  completed : Bool
  stopClosed : Bool
  tickerActive : Bool
  tickers : Nat
  segments : List TimeSegment
deriving DecidableEq, Repr

/-- `session.NewSessionRunner`: fresh runner over a task's ledger. -/
def SessionRunner.new (duration endTime : Int) (segments : List TimeSegment) : SessionRunner :=
  { duration := duration
    endTime := endTime
    paused := false
    completed := false
    stopClosed := false
    tickerActive := false
    tickers := 0
    segments := segments }

/-- Whether the last segment of a ledger is open (`End == nil`).
An empty ledger has no open last segment. -/
def lastOpen (segs : List TimeSegment) : Bool :=
  match segs.getLast? with
  | some seg => seg.stop = none
  | none => false

/-- Close the open last segment at `now`, as the bodies of `Pause` and
`Complete` do (`if len > 0 && last.End == nil then last.End = &now`). -/
def closeLast (segs : List TimeSegment) (now : Int) : List TimeSegment :=
  match segs with
  | [] => []
  | [seg] => if seg.stop = none then [{ seg with stop := some now }] else [seg]
  | seg :: rest => seg :: closeLast rest now

/-- Elapsed time of one segment, an open one measured to `now`
(`seg.End.Sub(seg.Start)` resp. `time.Since(seg.Start)`). -/
def segmentElapsed (now : Int) (seg : TimeSegment) : Int :=
  match seg.stop with
  | some e => e - seg.start
  | none => now - seg.start

/-- `SessionRunner.TotalElapsed`: sum of elapsed time over all segments. -/
def SessionRunner.TotalElapsed (sr : SessionRunner) (now : Int) : Int :=
  sr.segments.foldl (fun acc seg => acc + segmentElapsed now seg) 0

/-- `SessionRunner.isTimeUp`. -/
def SessionRunner.isTimeUp (sr : SessionRunner) (now : Int) : Bool :=
  if sr.duration > 0 then
    sr.TotalElapsed now ≥ sr.duration
  else if sr.endTime ≠ 0 then
    now > sr.endTime
  else
    false

/-- `SessionRunner.Remaining`. -/
def SessionRunner.Remaining (sr : SessionRunner) (now : Int) : Int :=
  if sr.completed then 0
  else if sr.duration > 0 then
    if sr.TotalElapsed now ≥ sr.duration then 0 else sr.duration - sr.TotalElapsed now
  else if sr.endTime ≠ 0 then
    if sr.endTime - now < 0 then 0 else sr.endTime - now
  else 0

/-- `SessionRunner.Start`.  Guard: `if sr.Paused || sr.Completed`.  Past
the guard it appends an open segment when the ledger is empty or its
last segment is closed, and unconditionally creates a new ticker and
spawns a tick worker.  It emits no event. -/
def SessionRunner.Start (sr : SessionRunner) (now : Int) :
    SessionRunner × List SessionEvent :=
  if sr.paused || sr.completed then (sr, [])
  else
    let segs :=
      if sr.segments.isEmpty || !(lastOpen sr.segments) then
        sr.segments ++ [{ start := now, stop := none }]
      else sr.segments
    ({ sr with segments := segs, tickerActive := true, tickers := sr.tickers + 1 }, [])

/-- `SessionRunner.Pause`. -/
def SessionRunner.Pause (sr : SessionRunner) (now : Int) :
    SessionRunner × List SessionEvent :=
  if sr.paused || sr.completed then (sr, [])
  else
    ({ sr with
        segments := closeLast sr.segments now
        paused := true
        tickerActive := false },
      [SessionEvent.paused])

/-- `SessionRunner.Resume`. -/
def SessionRunner.Resume (sr : SessionRunner) (now : Int) :
    SessionRunner × List SessionEvent :=
  if !sr.paused || sr.completed then (sr, [])
  else
    ({ sr with
        segments := sr.segments ++ [{ start := now, stop := none }]
        paused := false
        tickerActive := true
        tickers := sr.tickers + 1 },
      [SessionEvent.resumed])

/-- `SessionRunner.Complete`.  When the `Completed` flag is set it
returns at once.  Otherwise it closes the open segment, sets the flag,
stops the ticker, and then inspects `stopCh`: if the channel is already
closed (an earlier `Stop`) it returns without emitting; otherwise it
closes the channel and emits `EventCompleted`. -/
def SessionRunner.Complete (sr : SessionRunner) (now : Int) :
    SessionRunner × List SessionEvent :=
  if sr.completed then (sr, [])
  else
    let sr1 := { sr with
      segments := closeLast sr.segments now
      completed := true
      tickerActive := false }
    if sr.stopClosed then (sr1, [])
    else ({ sr1 with stopClosed := true }, [SessionEvent.completed])

/-- `SessionRunner.Stop`.  Returns at once when completed; otherwise
stops the ticker and, unless `stopCh` is already closed, closes it and
emits `EventStopped`.  It does not touch the segment list. -/
def SessionRunner.Stop (sr : SessionRunner) (_now : Int) :
    SessionRunner × List SessionEvent :=
  if sr.completed then (sr, [])
  else
    let sr1 := { sr with tickerActive := false }
    if sr.stopClosed then (sr1, [])
    else ({ sr1 with stopClosed := true }, [SessionEvent.stopped])

/-- Body of the tick worker on one ticker firing: emit `EventTick`,
then call `Complete` when `isTimeUp`.  A stopped ticker never fires. -/
def SessionRunner.Tick (sr : SessionRunner) (now : Int) :
    SessionRunner × List SessionEvent :=
  if sr.tickerActive then
    if sr.isTimeUp now then
      let (sr1, evs) := sr.Complete now
      (sr1, SessionEvent.tick :: evs)
    else (sr, [SessionEvent.tick])
  else (sr, [])

/-- The operations a driver (or the tick worker) can invoke on a
runner, each stamped with the wall-clock time at which it runs. -/
inductive SessionOp where
  | start
  | pause
  | resume
  | complete
  | stop
  | tick
deriving DecidableEq, Repr

/-- One operation step. -/
def SessionRunner.step (sr : SessionRunner) (op : SessionOp) (now : Int) :
    SessionRunner × List SessionEvent :=
  match op with
  | SessionOp.start => sr.Start now
  | SessionOp.pause => sr.Pause now
  | SessionOp.resume => sr.Resume now
  | SessionOp.complete => sr.Complete now
  | SessionOp.stop => sr.Stop now
  | SessionOp.tick => sr.Tick now

/-- Run a sequence of timed operations, collecting the emitted events. -/
def SessionRunner.run (sr : SessionRunner) :
    List (SessionOp × Int) → SessionRunner × List SessionEvent
  | [] => (sr, [])
  | (op, now) :: rest =>
    let out := sr.step op now
    let out2 := out.1.run rest
    (out2.1, out.2 ++ out2.2)

/-- States reachable from a fresh runner over an empty or all-closed
ledger by any sequence of operations. -/
inductive SessionRunner.Reachable : SessionRunner → Prop where
  | init (duration endTime : Int) (segs : List TimeSegment)
      (hclosed : ∀ seg ∈ segs, seg.stop ≠ none) :
      SessionRunner.Reachable (SessionRunner.new duration endTime segs)
  | step (sr : SessionRunner) (op : SessionOp) (now : Int) :
      SessionRunner.Reachable sr → SessionRunner.Reachable (sr.step op now).1

/-! ## Commit watcher (`GitWatcher`) -/

/-- De-duplication key of one commit log line: the first 8 characters
when the line is longer than 8 characters, else the whole line
(`if len(commit) > 8 { hash = commit[:8] } else { hash = commit }`). -/
def commitKey (commit : List Char) : List Char :=
  if commit.length > 8 then commit.take 8 else commit

/-- One poll's inner loop: walk the commit lines in order, emit each
line whose key is not yet in `lastHashes`, and record its key. -/
def pollCommits : List (List Char) → List (List Char) →
    List (List Char) × List (List Char)
  | [], seen => ([], seen)
  | c :: rest, seen =>
    if commitKey c ∈ seen then pollCommits rest seen
    else
      let out := pollCommits rest (commitKey c :: seen)
      (c :: out.1, out.2)

/-- The watcher's poll loop over the lifetime of one instance: each
element is one poll result (`none` = `GetCommitsSince` failed, which
sends on the error channel and `continue`s without touching
`lastHashes`).  Returns all commit lines sent on `commitsCh`, in
order, and the final `lastHashes` set. -/
def GitWatcher.runPolls : List (Option (List (List Char))) → List (List Char) →
    List (List Char) × List (List Char)
  | [], seen => ([], seen)
  | none :: rest, seen => GitWatcher.runPolls rest seen
  | some commits :: rest, seen =>
    let out := pollCommits commits seen
    let out2 := GitWatcher.runPolls rest out.2
    (out.1 ++ out2.1, out2.2)

/-! ## State store (`internal/core/state_manager.go`) -/

/-- `FileStateStore.RemoveTaskState` / `InMemoryStateStore.RemoveTaskState`:
loop over the input appending every entry whose hash differs into a
fresh slice. -/
def RemoveTaskState (states : List TimeBoxState) (taskHash : String) :
    List TimeBoxState :=
  states.foldl (fun acc s => if s.taskHash ≠ taskHash then acc ++ [s] else acc) []

/-- Stand-in for the `encoding/json` rendering of the state list that
`Save` writes.  The claims under proof never depend on the shape of
the encoding, only on which bytes end up in the file, so a simple
injective rendering suffices. -/
def encodeStates (states : List TimeBoxState) : List Char :=
  (toString (repr states)).toList

/-- Fault model for one `FileStateStore.Save` call.  The Go body is
`os.Create(fs.File)` — which truncates the existing file in place —
followed by a JSON encode into the same handle.  `createFails` models
`os.Create` returning an error (file untouched); `writeFails` models a
failure after the truncating create, when at most a prefix of the
encoding has reached the file (the empty prefix is taken as the
representative torn state). -/
inductive SaveOutcome where
  | success
  | createFails
  | writeFails
deriving DecidableEq, Repr

/-- Effect of `FileStateStore.Save` on the persisted file.  The first
component is the file contents afterwards (`none` = no file), the
second is whether the call returned without error. -/
def FileStateStore.Save (file : Option (List Char)) (states : List TimeBoxState)
    (outcome : SaveOutcome) : Option (List Char) × Bool :=
  match outcome with
  | SaveOutcome.createFails => (file, false)
  | SaveOutcome.writeFails => (some [], false)
  | SaveOutcome.success => (some (encodeStates states), true)

/-! ## Timebox parser (`parser.ParseTimeBox`)

Calendar model: `time.Now()` is given as a day number plus a minute of
that day, and `time.Date(now.Year(), now.Month(), now.Day(), h, m, 0, 0,
now.Location())` is the minute `day * 1440 + h * 60 + m` on a linear
axis of 1440-minute days; the zero `time.Time` is minute `0`.  Durations
are returned in minutes (`h*time.Hour + m*time.Minute` scaled). -/

/-- Numeric value of a digit run. -/
def digitsToNat (ds : List Char) : Nat :=
  ds.foldl (fun acc c => acc * 10 + (c.toNat - '0'.toNat)) 0

/-- `time.Parse("15:04", s)`: a 1- or 2-digit hour below 24, a colon,
and exactly two minute digits below 60, consuming the whole string. -/
def parseClock (s : List Char) : Option (Nat × Nat) :=
  match s with
  | [h1, ':', m1, m2] =>
    if h1.isDigit && m1.isDigit && m2.isDigit then
      let h := digitsToNat [h1]
      let m := digitsToNat [m1, m2]
      if h < 24 && m < 60 then some (h, m) else none
    else none
  | [h1, h2, ':', m1, m2] =>
    if h1.isDigit && h2.isDigit && m1.isDigit && m2.isDigit then
      let h := digitsToNat [h1, h2]
      let m := digitsToNat [m1, m2]
      if h < 24 && m < 60 then some (h, m) else none
    else none
  | _ => none

/-- `regexp \s` character class (`[\t\n\f\r ]`). -/
def reSpace (c : Char) : Bool :=
  c = ' ' || c = '\t' || c = '\n' || c = '\x0c' || c = '\r'

/-- `unicode.IsSpace` restricted to the ASCII range, as used by
`strings.TrimSpace`. -/
def goIsSpace (c : Char) : Bool :=
  c = ' ' || c = '\t' || c = '\n' || c = '\x0b' || c = '\x0c' || c = '\r'

/-- `strings.TrimSpace`. -/
def trimSpace (s : List Char) : List Char :=
  ((s.dropWhile goIsSpace).reverse.dropWhile goIsSpace).reverse

/-- Split a character list at every occurrence of `sep`
(`strings.Split` / `bytes.Split` with a one-character separator);
always returns at least one part. -/
def splitOnChar (sep : Char) : List Char → List (List Char)
  | [] => [[]]
  | c :: rest =>
    if c = sep then [] :: splitOnChar sep rest
    else
      match splitOnChar sep rest with
      | part :: parts => (c :: part) :: parts
      | [] => [[c]]

/-- The duration form `^(\d+h)?(\d+m)?$`: an optional digit run
followed by `h`, an optional digit run followed by `m`, nothing else.
Returns the total in minutes.  The regexp match is deterministic: a
maximal digit run either is followed by the group's letter or the
whole group matches empty. -/
def parseDurationSpec (tb : List Char) : Option Nat :=
  let ds1 := tb.takeWhile Char.isDigit
  let afterH :=
    if ds1 ≠ [] && (tb.drop ds1.length).head? = some 'h' then
      some (digitsToNat ds1, (tb.drop ds1.length).tail)
    else some (0, tb)
  match afterH with
  | some (h, r1) =>
    let ds2 := r1.takeWhile Char.isDigit
    let afterM :=
      if ds2 ≠ [] && (r1.drop ds2.length).head? = some 'm' then
        some (digitsToNat ds2, (r1.drop ds2.length).tail)
      else some (0, r1)
    match afterM with
    | some (m, r2) => if r2 = [] then some (h * 60 + m) else none
    | none => none
  | none => none

/-- A `[` or `]` character, for `strings.Trim(timeBox, "[]")`. -/
def isBracketChar (c : Char) : Bool := c = '[' || c = ']'

/-- The successful tail of the time-range branch: parse the end-of-range
clock string with `time.Parse("15:04", ...)`, anchor it to today, and
push it to tomorrow when it is already past
(`if endTime.Before(now) { endTime = endTime.Add(24 * time.Hour) }`). -/
def parseRangeEnd (p2 : List Char) (nowDay nowMin : Nat) : Option (Nat × Nat) :=
  match parseClock (trimSpace p2) with
  | some (h, m) =>
    some (0,
      if nowDay * 1440 + h * 60 + m < nowDay * 1440 + nowMin then
        nowDay * 1440 + h * 60 + m + 1440
      else nowDay * 1440 + h * 60 + m)
  | none => none

/-- The body of `ParseTimeBox` after the leading `@` has been removed:
either the `[HH:MM-HH:MM]` time-range form or the `\d+h\d+m` duration
form. -/
def parseAfterAt (tb : List Char) (nowDay nowMin : Nat) : Option (Nat × Nat) :=
  if tb.head? = some '[' && tb.getLast? = some ']' then
    match splitOnChar '-'
        (((tb.dropWhile isBracketChar).reverse.dropWhile isBracketChar).reverse) with
    | [_, p2] => parseRangeEnd p2 nowDay nowMin
    | _ => none
  else
    match parseDurationSpec tb with
    | some d => if d > 0 then some (d, 0) else none
    | none => none

/-- `parser.ParseTimeBox`.  `nowDay`/`nowMin` locate `time.Now()` on
the calendar model above.  Returns `some (duration, endTime)` for a
nil-error return (duration in minutes; endTime in absolute minutes, `0`
playing the role of the zero `time.Time`), `none` for an error. -/
def ParseTimeBox (timeBox : List Char) (nowDay nowMin : Nat) :
    Option (Nat × Nat) :=
  if timeBox = [] then none
  else
    parseAfterAt (if timeBox.head? = some '@' then timeBox.tail else timeBox)
      nowDay nowMin

/-! ## Task rewriter (`internal/rewrite/update.go`, `scanner.go`)

`MarkTaskAsCompleted` splits the document with `bytes.Split(content,
"\n")` to locate the task line, then rewrites through a
`ScannerRewriter` whose `bufio.Scanner` tokenises the same document
with `bufio.ScanLines`: one token per newline-separated chunk, a final
empty chunk after a trailing newline is not a token, and one trailing
`\r` is removed from each token.  Every write appends the token (or
replacement line) plus a single `'\n'`. -/

/-- `bytes.Split(content, []byte("\n"))`. -/
def splitNL (content : List Char) : List (List Char) :=
  splitOnChar '\n' content

/-- `bufio.dropCR`: strip one trailing carriage return from a token. -/
def dropCR (l : List Char) : List Char :=
  if l.getLast? = some '\r' then l.dropLast else l

/-- The token sequence produced by `bufio.Scanner` with `ScanLines`
over the whole content. -/
def scanTokens (content : List Char) : List (List Char) :=
  let parts := splitNL content
  let parts := if parts.getLast? = some [] then parts.dropLast else parts
  parts.map dropCR

/-- Join lines, terminating each with `'\n'`, as the rewriter's output
buffer does. -/
def joinNL (lines : List (List Char)) : List Char :=
  match lines with
  | [] => []
  | l :: rest => l ++ '\n' :: joinNL rest

/-- `strings.Replace(line, old, new, 1)` for a non-empty `old`:
replace the first occurrence only. -/
def replaceFirst (l pat rep : List Char) : List Char :=
  match l with
  | [] => []
  | c :: rest =>
    if pat.isPrefixOf l then rep ++ l.drop pat.length
    else c :: replaceFirst rest pat rep

/-- One-or-more digits followed by the rest. -/
def takeDigits1 (s : List Char) : Option (List Char) :=
  let ds := s.takeWhile Char.isDigit
  if ds = [] then none else some (s.drop ds.length)

/-- `\d+h\d+m | \d+h | \d+m | \[\d+:\d+-\d+:\d+\]`, then `\s*` to the
end of the line.  Alternation order does not matter for the Boolean
match. -/
def matchTimeboxBody (r : List Char) : Bool :=
  let alt1 :=
    match takeDigits1 r with
    | some ('h' :: r2) =>
      match takeDigits1 r2 with
      | some ('m' :: r3) => r3.all reSpace
      | _ => false
    | _ => false
  let alt2 :=
    match takeDigits1 r with
    | some ('h' :: r2) => r2.all reSpace
    | _ => false
  let alt3 :=
    match takeDigits1 r with
    | some ('m' :: r2) => r2.all reSpace
    | _ => false
  let alt4 :=
    match r with
    | '[' :: r1 =>
      match takeDigits1 r1 with
      | some (':' :: r2) =>
        match takeDigits1 r2 with
        | some ('-' :: r3) =>
          match takeDigits1 r3 with
          | some (':' :: r4) =>
            match takeDigits1 r4 with
            | some (']' :: r5) => r5.all reSpace
            | _ => false
          | _ => false
        | _ => false
      | _ => false
    | _ => false
  alt1 || alt2 || alt3 || alt4

/-- Whether a suffix matches the whole timebox pattern
`\s*@(\d+h\d+m|\d+h|\d+m|\[\d+:\d+-\d+:\d+\])\s*$`. -/
def matchTimeboxSuffix (s : List Char) : Bool :=
  match s.dropWhile reSpace with
  | '@' :: r => matchTimeboxBody r
  | _ => false

/-- `timeboxPattern.ReplaceAllString(description, "")`: the pattern is
anchored at `$`, so at most the leftmost suffix match is removed. -/
def stripTimebox (desc : List Char) : List Char :=
  match desc with
  | [] => []
  | c :: rest =>
    if matchTimeboxSuffix (c :: rest) then []
    else c :: stripTimebox rest

/-- `strings.EqualFold` on the ASCII range. -/
def eqFold (a b : List Char) : Bool :=
  a.map Char.toLower = b.map Char.toLower

/-- `rewrite.isTaskLine`: match `^\s*-\s*\[\s*\]\s+(.+)$`, strip a
trailing timebox annotation from the captured group, trim, and compare
case-insensitively with the trimmed target description.  In `\s+(.+)$`
the captured group is everything after the maximal run of spaces
following `]`, except that when that run reaches the end of the line
the matcher backtracks one space so that `.+` is non-empty. -/
def isTaskLine (line taskDesc : List Char) : Bool :=
  match (line.dropWhile reSpace) with
  | '-' :: r1 =>
    match (r1.dropWhile reSpace) with
    | '[' :: r2 =>
      match (r2.dropWhile reSpace) with
      | ']' :: rest =>
        let k := (rest.takeWhile reSpace).length
        if k = 0 then false
        else if k = rest.length && k < 2 then false
        else
          let desc := if k < rest.length then rest.drop k else rest.drop (k - 1)
          eqFold (trimSpace (stripTimebox desc)) (trimSpace taskDesc)
      | _ => false
    | _ => false
  | _ => false

/-- Digits of a natural number, for `fmt.Sprintf("%d", n)`. -/
def natChars (n : Nat) : List Char :=
  (toString n).toList

/-- The replacement block `newLines` built in `MarkTaskAsCompleted`:
the matched line with its checkbox ticked, a duration annotation when
`totalDuration > 0`, and the commit list when non-empty.
`totalDuration` is in nanoseconds; `int(d.Hours())`, `int(d.Minutes())`
and `int(d.Seconds())` truncate (exactly so for every duration small
enough that the float64 conversions are exact). -/
def newTaskLines (taskLine : List Char) (totalDuration : Int)
    (commits : List (List Char)) : List (List Char) :=
  let line1 := replaceFirst taskLine ("[ ]".toList) ("[x]".toList)
  let line1 :=
    if totalDuration > 0 then
      let d := totalDuration.toNat
      let hours := d / 3600000000000
      let minutes := d / 60000000000 % 60
      let seconds := d / 1000000000 % 60
      line1 ++ ("\n\n  ⏱️ ".toList) ++ natChars hours ++ ("h ".toList) ++
        natChars minutes ++ ("m ".toList) ++ natChars seconds ++ ("s  ".toList)
    else line1
  let commitLines :=
    if commits ≠ [] then
      ("  📝 Commits:".toList) :: commits.map (fun c => ("  - ".toList) ++ c)
    else []
  line1 :: commitLines

/-- `rewrite.MarkTaskAsCompleted`, as a function from the document text
to the rewritten text (`none` = "task not found" error; file-system
errors are outside the model).  The final `else` branch mirrors the
code path where the scanner is exhausted before the matched index —
`ReplaceLines` then returns early with a nil error and the replacement
block is never written (the branch is unreachable because a matched
line is never the dropped trailing empty chunk). -/
def MarkTaskAsCompleted (content : List Char) (taskDesc : List Char)
    (totalDuration : Int) (commits : List (List Char)) : Option (List Char) :=
  let lines := splitNL content
  match lines.findIdx? (fun l => isTaskLine l taskDesc) with
  | none => none
  | some i =>
    let toks := scanTokens content
    if i < toks.length then
      let taskLine := lines.getD i []
      some (joinNL (toks.take i) ++
            joinNL (newTaskLines taskLine totalDuration commits) ++
            joinNL (toks.drop (i + 1)))
    else
      some (joinNL toks)

/-- Number of closed segments in a ledger. -/
def countClosed (segs : List TimeSegment) : Nat :=
  segs.countP (fun seg => decide (seg.stop ≠ none))

/-- Number of open segments in a ledger. -/
def countOpen (segs : List TimeSegment) : Nat :=
  segs.countP (fun seg => decide (seg.stop = none))

/-- Every segment before the last one is closed. -/
def prefixWellFormed : List TimeSegment → Prop
  | [] => True
  | [_] => True
  | seg :: rest => seg.stop ≠ none ∧ prefixWellFormed rest

/-- Every segment is closed. -/
def allClosed (segs : List TimeSegment) : Prop :=
  ∀ seg ∈ segs, seg.stop ≠ none

/-- The ledger invariant maintained by the session engine: every
segment before the last is closed, and while Paused the last segment is
closed too. -/
def sessionInv (sr : SessionRunner) : Prop :=
  prefixWellFormed sr.segments ∧ (sr.paused = true → lastOpen sr.segments = false)

/-! ## Theorems -/

/-- Helper: the append-loop in `RemoveTaskState` is filtering. -/
theorem removeTaskState_foldl_eq (h : String) (states : List TimeBoxState)
    (acc : List TimeBoxState) :
    states.foldl (fun acc s => if s.taskHash ≠ h then acc ++ [s] else acc) acc =
      acc ++ states.filter (fun s => s.taskHash != h) := by
  induction states generalizing acc with
  | nil => simp
  | cons s rest ih =>
    by_cases hs : s.taskHash = h
    · rw [List.foldl_cons, if_neg (by simpa using hs), ih, List.filter_cons]
      simp [hs]
    · rw [List.foldl_cons, if_pos hs, ih, List.filter_cons]
      simp [hs]

/-- C7: `RemoveTaskState` returns exactly the entries whose `TaskHash`
differs from the given hash, in their original order (it equals a
filter of the input, hence is a sublist and keeps no matching entry).
The Go loop only reads its input and appends to a fresh slice, which
the purely functional embedding reflects: the input list is a value
and cannot be mutated. -/
theorem removeTaskState_exact (states : List TimeBoxState) (h : String) :
    RemoveTaskState states h = states.filter (fun s => s.taskHash != h) ∧
    (∀ s ∈ RemoveTaskState states h, s.taskHash ≠ h) ∧
    (RemoveTaskState states h).Sublist states := by
  have key : RemoveTaskState states h = states.filter (fun s => s.taskHash != h) := by
    simpa [RemoveTaskState] using removeTaskState_foldl_eq h states []
  refine ⟨key, ?_, ?_⟩
  · intro s hs
    rw [key] at hs
    simpa using (List.mem_filter.mp hs).2
  · rw [key]
    exact List.filter_sublist _

/-- C4 (counterexample): `Save` is not atomic and does not preserve the
previous on-disk contents on failure: starting from a file holding
`"old"`, a `Save` that fails after `os.Create` has already truncated
the file returns an error while the file no longer holds `"old"`. -/
theorem save_counterexample :
    (FileStateStore.Save (some ("old".toList)) [] SaveOutcome.writeFails).2 = false ∧
    (FileStateStore.Save (some ("old".toList)) [] SaveOutcome.writeFails).1 ≠
      some ("old".toList) := by
  decide

/-- C4 (amended): `Save` overwrites the file in place — `os.Create`
truncates it, then the encoder writes into the same handle; there is no
write-temp-then-rename step.  The previous contents survive only when
the create itself fails; on success the file holds exactly the new
encoding; a failure after the create leaves the truncated file. -/
theorem save_behavior (file : Option (List Char)) (states : List TimeBoxState) :
    FileStateStore.Save file states SaveOutcome.createFails = (file, false) ∧
    FileStateStore.Save file states SaveOutcome.success =
      (some (encodeStates states), true) ∧
    (FileStateStore.Save file states SaveOutcome.writeFails).1 = some [] :=
  ⟨rfl, rfl, rfl⟩

/-- C8: on the document `"- [ ] Buy milk @10m\n- [ ] Call Bob @20m\n"`,
completing "Buy milk" with 9m42s (582 s) elapsed and no commits ticks
the first task's checkbox, appends a `⏱️ 0h 9m 42s` annotation, and
reproduces the line `- [ ] Call Bob @20m` unchanged. -/
theorem markTask_buyMilk :
    MarkTaskAsCompleted ("- [ ] Buy milk @10m\n- [ ] Call Bob @20m\n".toList)
        ("Buy milk".toList) (582 * 1000000000) [] =
      some ("- [x] Buy milk @10m\n\n  ⏱️ 0h 9m 42s  \n- [ ] Call Bob @20m\n".toList) ∧
    (splitNL ("- [x] Buy milk @10m\n\n  ⏱️ 0h 9m 42s  \n- [ ] Call Bob @20m\n".toList)).head? =
      some ("- [x] Buy milk @10m".toList) ∧
    ("- [ ] Call Bob @20m".toList) ∈
      splitNL ("- [x] Buy milk @10m\n\n  ⏱️ 0h 9m 42s  \n- [ ] Call Bob @20m\n".toList) ∧
    ("  ⏱️ 0h 9m 42s  ".toList) ∈
      splitNL ("- [x] Buy milk @10m\n\n  ⏱️ 0h 9m 42s  \n- [ ] Call Bob @20m\n".toList) := by
  decide

/-- C2 (counterexample): rewriting is not byte-exact outside the
matched task's span.  In the document `"a\r\n- [ ] T @1m\n"` the task
`T` sits on line 1, yet the rewritten document turns line 0 from
`"a\r"` into `"a"`: the `bufio.Scanner` strips the carriage return
from a line it merely copies. -/
theorem markTask_crlf_counterexample :
    MarkTaskAsCompleted ("a\r\n- [ ] T @1m\n".toList) ("T".toList) 0 [] =
      some ("a\n- [x] T @1m\n".toList) ∧
    (splitNL ("a\r\n- [ ] T @1m\n".toList)).findIdx?
        (fun l => isTaskLine l ("T".toList)) = some 1 ∧
    (splitNL ("a\r\n- [ ] T @1m\n".toList)).getD 0 [] = ("a\r".toList) ∧
    (splitNL ("a\n- [x] T @1m\n".toList)).getD 0 [] = ("a".toList) ∧
    ("a\r".toList) ≠ ("a".toList) := by
  decide

/-- C6 (counterexample): `Start` is not a no-op in a Running or Stopped
state.  After `Start` on a fresh runner the session is Running (open
segment, ticker active, not paused, not completed); a second `Start`
nevertheless creates another ticker.  And after `Stop` on a fresh
runner (a terminal, Stopped state) a `Start` both opens a new segment
and starts a ticker. -/
theorem start_counterexample :
    lastOpen (((SessionRunner.new 0 0 []).Start 0).1).segments = true ∧
    (((SessionRunner.new 0 0 []).Start 0).1).paused = false ∧
    (((SessionRunner.new 0 0 []).Start 0).1).completed = false ∧
    (((SessionRunner.new 0 0 []).Start 0).1).tickerActive = true ∧
    ((((SessionRunner.new 0 0 []).Start 0).1).Start 5).1.tickers =
      (((SessionRunner.new 0 0 []).Start 0).1).tickers + 1 ∧
    (((SessionRunner.new 0 0 []).Stop 0).1).stopClosed = true ∧
    (((SessionRunner.new 0 0 []).Stop 0).1).completed = false ∧
    ((((SessionRunner.new 0 0 []).Stop 0).1).Start 1).1.segments.length =
      (((SessionRunner.new 0 0 []).Stop 0).1).segments.length + 1 ∧
    ((((SessionRunner.new 0 0 []).Stop 0).1).Start 1).1.tickers =
      (((SessionRunner.new 0 0 []).Stop 0).1).tickers + 1 := by
  decide

/-- C6 (amended): `Start` is a no-op exactly when the runner is Paused
or Completed.  Otherwise — including while Running and after `Stop` —
it emits no event, always creates a fresh ticker, and appends a new
open segment at `now` exactly when the ledger is empty or its last
segment is closed. -/
theorem start_behavior (sr : SessionRunner) (now : Int) :
    ((sr.paused || sr.completed) = true → sr.Start now = (sr, [])) ∧
    ((sr.paused || sr.completed) = false →
      (sr.Start now).2 = [] ∧
      (sr.Start now).1.tickers = sr.tickers + 1 ∧
      (sr.Start now).1.tickerActive = true ∧
      (sr.Start now).1.segments =
        (if lastOpen sr.segments then sr.segments
         else sr.segments ++ [{ start := now, stop := none }])) := by
  constructor
  · intro h
    simp [SessionRunner.Start, h]
  · intro h
    have hempty : (sr.segments.isEmpty || !(lastOpen sr.segments)) = !(lastOpen sr.segments) := by
      cases hs : sr.segments with
      | nil => simp [lastOpen]
      | cons a l => simp
    refine ⟨?_, ?_, ?_, ?_⟩
    · simp [SessionRunner.Start, h, hempty]
    · simp [SessionRunner.Start, h, hempty]
    · simp [SessionRunner.Start, h, hempty]
    · simp only [SessionRunner.Start, h, hempty, Bool.false_eq_true, if_false]
      cases hlo : lastOpen sr.segments <;> simp

/-- Witness for `start_behavior` at a concrete runner. -/
theorem start_behavior_witness :
    (((SessionRunner.new 7 0 []).paused || (SessionRunner.new 7 0 []).completed) = false) ∧
    ((SessionRunner.new 7 0 []).Start 3).2 = [] ∧
    ((SessionRunner.new 7 0 []).Start 3).1.tickers = (SessionRunner.new 7 0 []).tickers + 1 :=
  ⟨by decide,
    ((start_behavior (SessionRunner.new 7 0 []) 3).2 (by decide)).1,
    ((start_behavior (SessionRunner.new 7 0 []) 3).2 (by decide)).2.1⟩

/-- C5: whenever `ParseTimeBox` returns without error, exactly one of
"positive duration" and "non-zero end time" holds; both-zero results
are impossible, and inputs that would produce them (such as `@` or
`@0h0m`) are rejected with an error.  The hypothesis `0 < nowDay * 1440
+ nowMin` says only that `time.Now()` is not the zero time. -/
theorem parseTimeBox_exclusive (tb : List Char) (nowDay nowMin : Nat)
    (hnow : 0 < nowDay * 1440 + nowMin) (d e : Nat)
    (hok : ParseTimeBox tb nowDay nowMin = some (d, e)) :
    (0 < d ∧ e = 0) ∨ (d = 0 ∧ e ≠ 0) := by
  have hrange : ∀ p2, parseRangeEnd p2 nowDay nowMin = some (d, e) →
      d = 0 ∧ e ≠ 0 := by
    intro p2 hp
    unfold parseRangeEnd at hp
    rcases hclock : parseClock (trimSpace p2) with _ | ⟨h, m⟩ <;> rw [hclock] at hp
    · exact absurd hp (by simp)
    · simp only [Option.some.injEq, Prod.mk.injEq] at hp
      obtain ⟨hd, he⟩ := hp
      refine ⟨hd.symm, ?_⟩
      rw [← he]
      split <;> omega
  have hbody : ∀ s, parseAfterAt s nowDay nowMin = some (d, e) →
      (0 < d ∧ e = 0) ∨ (d = 0 ∧ e ≠ 0) := by
    intro s hp
    unfold parseAfterAt at hp
    split at hp
    · split at hp
      · exact Or.inr (hrange _ hp)
      · exact absurd hp (by simp)
    · split at hp
      · split at hp
        · simp only [Option.some.injEq, Prod.mk.injEq] at hp
          obtain ⟨hd, he⟩ := hp
          left
          constructor <;> omega
        · exact absurd hp (by simp)
      · exact absurd hp (by simp)
  unfold ParseTimeBox at hok
  split at hok
  · exact absurd hok (by simp)
  · exact hbody _ hok

/-- Witness for `parseTimeBox_exclusive`: `@1h30m` at 08:20 on day 3. -/
theorem parseTimeBox_exclusive_witness :
    0 < 3 * 1440 + 500 ∧ ParseTimeBox ("@1h30m".toList) 3 500 = some (90, 0) ∧
    ((0 < 90 ∧ 0 = 0) ∨ (90 = 0 ∧ (0 : Nat) ≠ 0)) :=
  ⟨by decide, by decide,
    parseTimeBox_exclusive ("@1h30m".toList) 3 500 (by decide) 90 0 (by decide)⟩

/-- C10: `Remaining` is never negative; it is `0` whenever the session
is completed, whenever a duration-based session's elapsed time has
reached its duration, whenever an end-time-based session's end time is
at or before `now`, and whenever neither limit is configured; in the
remaining (still-running) situations it is strictly positive. -/
theorem remaining_cases (sr : SessionRunner) (now : Int) :
    0 ≤ sr.Remaining now ∧
    (sr.completed = true → sr.Remaining now = 0) ∧
    (sr.completed = false → 0 < sr.duration → sr.duration ≤ sr.TotalElapsed now →
      sr.Remaining now = 0) ∧
    (sr.completed = false → sr.duration ≤ 0 → sr.endTime ≠ 0 → sr.endTime ≤ now →
      sr.Remaining now = 0) ∧
    (sr.completed = false → sr.duration ≤ 0 → sr.endTime = 0 → sr.Remaining now = 0) ∧
    (sr.completed = false → 0 < sr.duration → sr.TotalElapsed now < sr.duration →
      sr.Remaining now = sr.duration - sr.TotalElapsed now ∧ 0 < sr.Remaining now) ∧
    (sr.completed = false → sr.duration ≤ 0 → sr.endTime ≠ 0 → now < sr.endTime →
      sr.Remaining now = sr.endTime - now ∧ 0 < sr.Remaining now) := by
  unfold SessionRunner.Remaining
  refine ⟨?_, ?_, ?_, ?_, ?_, ?_, ?_⟩
  · split_ifs <;> omega
  · intro h; simp [h]
  · intro h h1 h2; simp only [h, Bool.false_eq_true, if_false]; split_ifs <;> omega
  · intro h h1 h2 h3; simp only [h, Bool.false_eq_true, if_false]; split_ifs <;> omega
  · intro h h1 h2; simp only [h, Bool.false_eq_true, if_false]; split_ifs <;> omega
  · intro h h1 h2; simp only [h, Bool.false_eq_true, if_false]
    split_ifs <;> constructor <;> omega
  · intro h h1 h2 h3; simp only [h, Bool.false_eq_true, if_false]
    split_ifs <;> constructor <;> omega

/-- Witness for `remaining_cases`: a completed runner and a running
duration-based runner. -/
theorem remaining_cases_witness :
    (SessionRunner.new 10 0 [⟨0, some 3⟩]).Remaining 4 = 10 - 3 ∧
    0 ≤ (SessionRunner.new 10 0 [⟨0, some 3⟩]).Remaining 4 :=
  ⟨((remaining_cases (SessionRunner.new 10 0 [⟨0, some 3⟩]) 4).2.2.2.2.2.1
      (by decide) (by decide) (by decide)).1.trans (by decide),
    (remaining_cases (SessionRunner.new 10 0 [⟨0, some 3⟩]) 4).1⟩

/-- Helper: a whole-closed ledger is prefix-well-formed. -/
theorem prefixWellFormed_of_allClosed (segs : List TimeSegment)
    (h : allClosed segs) : prefixWellFormed segs := by
  induction segs with
  | nil => trivial
  | cons seg rest ih =>
    cases rest with
    | nil => trivial
    | cons b l =>
      refine ⟨h seg (by simp), ih ?_⟩
      intro s hs
      exact h s (by simp [hs])

/-- Helper: prefix-well-formed with a closed (or absent) last segment
means every segment is closed. -/
theorem allClosed_of_prefixWellFormed (segs : List TimeSegment)
    (hpc : prefixWellFormed segs) (hlast : lastOpen segs = false) :
    allClosed segs := by
  induction segs with
  | nil => intro s hs; simp at hs
  | cons seg rest ih =>
    cases rest with
    | nil =>
      intro s hs
      simp only [List.mem_singleton] at hs
      subst hs
      simpa [lastOpen] using hlast
    | cons b l =>
      obtain ⟨h1, h2⟩ := hpc
      have hlast2 : lastOpen (b :: l) = false := by
        simpa [lastOpen] using hlast
      intro s hs
      rcases List.mem_cons.mp hs with rfl | hs2
      · exact h1
      · exact ih h2 hlast2 s hs2

/-- Helper: appending a segment to a whole-closed ledger keeps the
prefix well-formed. -/
theorem prefixWellFormed_append (segs : List TimeSegment) (x : TimeSegment)
    (h : allClosed segs) : prefixWellFormed (segs ++ [x]) := by
  induction segs with
  | nil => trivial
  | cons seg rest ih =>
    cases hr : rest ++ [x] with
    | nil => simpa using congrArg List.length hr
    | cons b l =>
      rw [List.cons_append, hr]
      refine ⟨h seg (by simp), ?_⟩
      rw [← hr]
      exact ih (fun s hs => h s (by simp [hs]))

/-- Helper: `closeLast` preserves the ledger's length. -/
theorem length_closeLast (segs : List TimeSegment) (now : Int) :
    (closeLast segs now).length = segs.length := by
  induction segs with
  | nil => rfl
  | cons seg rest ih =>
    cases rest with
    | nil =>
      unfold closeLast
      split <;> rfl
    | cons b l =>
      have hcl : closeLast (seg :: b :: l) now = seg :: closeLast (b :: l) now := rfl
      rw [hcl, List.length_cons, List.length_cons, ih]

/-- Helper: `closeLast` keeps prefix well-formedness. -/
theorem prefixWellFormed_closeLast (segs : List TimeSegment) (now : Int)
    (h : prefixWellFormed segs) : prefixWellFormed (closeLast segs now) := by
  induction segs with
  | nil => trivial
  | cons seg rest ih =>
    cases rest with
    | nil =>
      unfold closeLast
      split <;> trivial
    | cons b l =>
      obtain ⟨h1, h2⟩ := h
      have hcl : closeLast (seg :: b :: l) now = seg :: closeLast (b :: l) now := rfl
      rw [hcl]
      have ih2 := ih h2
      cases hc : closeLast (b :: l) now with
      | nil =>
        have hlen := congrArg List.length hc
        rw [length_closeLast] at hlen
        simp at hlen
      | cons c m =>
        rw [hc] at ih2
        exact ⟨h1, ih2⟩

/-- Helper: after `closeLast` the last segment is never open. -/
theorem lastOpen_closeLast (segs : List TimeSegment) (now : Int) :
    lastOpen (closeLast segs now) = false := by
  induction segs with
  | nil => rfl
  | cons seg rest ih =>
    cases rest with
    | nil =>
      unfold closeLast
      cases hs : seg.stop <;> simp [lastOpen, hs]
    | cons b l =>
      have hcl : closeLast (seg :: b :: l) now = seg :: closeLast (b :: l) now := rfl
      rw [hcl]
      cases hc : closeLast (b :: l) now with
      | nil =>
        have hlen := congrArg List.length hc
        rw [length_closeLast] at hlen
        simp at hlen
      | cons c m =>
        rw [hc] at ih
        simpa [lastOpen, List.getLast?_cons_cons] using ih

/-- Helper: a prefix-well-formed ledger has at most one open segment. -/
theorem countOpen_le_one (segs : List TimeSegment)
    (h : prefixWellFormed segs) : countOpen segs ≤ 1 := by
  induction segs with
  | nil => simp [countOpen]
  | cons seg rest ih =>
    cases rest with
    | nil =>
      simp only [countOpen, List.countP_cons, List.countP_nil]
      split <;> simp
    | cons b l =>
      obtain ⟨h1, h2⟩ := h
      have := ih h2
      simp only [countOpen, List.countP_cons] at this ⊢
      have hz : (if decide (seg.stop = none) = true then 1 else 0) = 0 := by
        simp [h1]
      omega

/-- Helper: an appended ledger keeps the invariant when the previous
last segment was closed. -/
theorem prefixWellFormed_append_of_lastClosed (segs : List TimeSegment)
    (x : TimeSegment) (hpc : prefixWellFormed segs)
    (hlast : lastOpen segs = false) : prefixWellFormed (segs ++ [x]) :=
  prefixWellFormed_append segs x (allClosed_of_prefixWellFormed segs hpc hlast)

/-- Helper: every operation preserves the session invariant. -/
theorem sessionInv_step (sr : SessionRunner) (op : SessionOp) (now : Int)
    (h : sessionInv sr) : sessionInv (sr.step op now).1 := by
  obtain ⟨hpc, hpl⟩ := h
  have hcomplete : sessionInv (sr.Complete now).1 := by
    unfold SessionRunner.Complete
    split
    · exact ⟨hpc, hpl⟩
    · split
      · exact ⟨prefixWellFormed_closeLast _ now hpc,
          fun _ => lastOpen_closeLast _ now⟩
      · exact ⟨prefixWellFormed_closeLast _ now hpc,
          fun _ => lastOpen_closeLast _ now⟩
  cases op with
  | start =>
    simp only [SessionRunner.step, SessionRunner.Start]
    split
    · exact ⟨hpc, hpl⟩
    · rename_i hguard
      have hp : sr.paused = false := by
        cases hpp : sr.paused
        · rfl
        · exact absurd (by simp [hpp]) hguard
      cases hlo : lastOpen sr.segments
      · simp only [hlo, Bool.not_false, Bool.or_true, if_true]
        exact ⟨prefixWellFormed_append_of_lastClosed _ _ hpc hlo,
          fun hcontra => by simp [hp] at hcontra⟩
      · have hne : sr.segments.isEmpty = false := by
          cases hs : sr.segments
          · rw [hs] at hlo; simp [lastOpen] at hlo
          · simp [hs]
        simp only [hlo, hne, Bool.not_true, Bool.or_false, if_false]
        exact ⟨hpc, fun hcontra => by simp [hp] at hcontra⟩
  | pause =>
    simp only [SessionRunner.step, SessionRunner.Pause]
    split
    · exact ⟨hpc, hpl⟩
    · exact ⟨prefixWellFormed_closeLast _ now hpc,
        fun _ => lastOpen_closeLast _ now⟩
  | resume =>
    simp only [SessionRunner.step, SessionRunner.Resume]
    split
    · exact ⟨hpc, hpl⟩
    · rename_i hguard
      have hp : sr.paused = true := by
        cases hpp : sr.paused
        · exact absurd (by simp [hpp]) hguard
        · rfl
      exact ⟨prefixWellFormed_append_of_lastClosed _ _ hpc (hpl hp),
        fun hcontra => by simp at hcontra⟩
  | complete =>
    exact hcomplete
  | stop =>
    simp only [SessionRunner.step, SessionRunner.Stop]
    split
    · exact ⟨hpc, hpl⟩
    · split
      · exact ⟨hpc, hpl⟩
      · exact ⟨hpc, hpl⟩
  | tick =>
    simp only [SessionRunner.step, SessionRunner.Tick]
    split
    · split
      · exact hcomplete
      · exact ⟨hpc, hpl⟩
    · exact ⟨hpc, hpl⟩

/-- Helper: every reachable state satisfies the session invariant. -/
theorem sessionInv_reachable (sr : SessionRunner)
    (h : SessionRunner.Reachable sr) : sessionInv sr := by
  induction h with
  | init duration endTime segs hclosed =>
    exact ⟨prefixWellFormed_of_allClosed segs hclosed, fun hp => by simp [SessionRunner.new] at hp⟩
  | step sr op now _ ih => exact sessionInv_step sr op now ih

/-- C3: in every state reachable from a fresh runner over an empty or
all-closed ledger, at most one segment is open, and any operation that
appends a segment does so only when the ledger is empty or its last
segment is closed. -/
theorem ledger_invariant (sr : SessionRunner) (h : SessionRunner.Reachable sr) :
    countOpen sr.segments ≤ 1 ∧
    ∀ op now, sr.segments.length < ((sr.step op now).1).segments.length →
      sr.segments = [] ∨ lastOpen sr.segments = false := by
  obtain ⟨hpc, hpl⟩ := sessionInv_reachable sr h
  refine ⟨countOpen_le_one _ hpc, ?_⟩
  intro op now hlen
  have hlenC : ∀ n : Int, ((sr.Complete n).1).segments.length = sr.segments.length := by
    intro n
    unfold SessionRunner.Complete
    split
    · rfl
    · split <;> simp [length_closeLast]
  cases op with
  | start =>
    simp only [SessionRunner.step, SessionRunner.Start] at hlen
    split at hlen
    · simp at hlen
    · cases hlo : lastOpen sr.segments
      · exact Or.inr rfl
      · have hne : sr.segments.isEmpty = false := by
          cases hs : sr.segments
          · rw [hs] at hlo
            simp [lastOpen] at hlo
          · simp [hs]
        simp only [hlo, hne, Bool.not_true, Bool.or_false, Bool.false_eq_true,
          if_false] at hlen
        omega
  | pause =>
    simp only [SessionRunner.step, SessionRunner.Pause] at hlen
    split at hlen
    · simp at hlen
    · simp only [length_closeLast] at hlen
      omega
  | resume =>
    simp only [SessionRunner.step, SessionRunner.Resume] at hlen
    split at hlen
    · simp at hlen
    · rename_i hguard
      have hp : sr.paused = true := by
        cases hpp : sr.paused
        · exact absurd (by simp [hpp]) hguard
        · rfl
      exact Or.inr (hpl hp)
  | complete =>
    simp only [SessionRunner.step] at hlen
    rw [hlenC now] at hlen
    omega
  | stop =>
    simp only [SessionRunner.step, SessionRunner.Stop] at hlen
    split at hlen
    · simp at hlen
    · split at hlen <;> simp at hlen
  | tick =>
    simp only [SessionRunner.step, SessionRunner.Tick] at hlen
    split at hlen
    · split at hlen
      · rw [hlenC now] at hlen
        omega
      · simp at hlen
    · simp at hlen

/-- Witness for `ledger_invariant` at a fresh runner. -/
theorem ledger_invariant_witness :
    SessionRunner.Reachable (SessionRunner.new 5 0 []) ∧
    countOpen (SessionRunner.new 5 0 []).segments ≤ 1 :=
  ⟨SessionRunner.Reachable.init 5 0 [] (by intro s hs; simp at hs),
    (ledger_invariant _ (SessionRunner.Reachable.init 5 0 [] (by intro s hs; simp at hs))).1⟩

/-- Helper: `Complete` always leaves the `Completed` flag set. -/
theorem completed_after_complete (sr : SessionRunner) (now : Int) :
    ((sr.Complete now).1).completed = true := by
  unfold SessionRunner.Complete
  split
  · rename_i h
    simpa using h
  · split <;> rfl

/-- Helper: closing an open last segment closes exactly one segment. -/
theorem countClosed_closeLast (segs : List TimeSegment) (now : Int)
    (h : lastOpen segs = true) :
    countClosed (closeLast segs now) = countClosed segs + 1 := by
  induction segs with
  | nil => simp [lastOpen] at h
  | cons seg rest ih =>
    cases rest with
    | nil =>
      have hs : seg.stop = none := by simpa [lastOpen] using h
      simp [closeLast, hs, countClosed, List.countP_cons]
    | cons b l =>
      have h2 : lastOpen (b :: l) = true := by
        simpa [lastOpen, List.getLast?_cons_cons] using h
      have hcl : closeLast (seg :: b :: l) now = seg :: closeLast (b :: l) now := rfl
      rw [hcl]
      simp only [countClosed, List.countP_cons] at ih ⊢
      have := ih h2
      omega

/-- Helper: one step's `Completed` events fit in the budget released by
the `Completed` flag's false-to-true transition. -/
theorem step_completed_budget (sr : SessionRunner) (op : SessionOp) (now : Int) :
    ((sr.step op now).2.count SessionEvent.completed) +
      (if sr.completed = true then 1 else 0) ≤
      (if ((sr.step op now).1).completed = true then 1 else 0) := by
  cases op with
  | start =>
    simp only [SessionRunner.step, SessionRunner.Start]
    split
    · simp
    · simp
  | pause =>
    simp only [SessionRunner.step, SessionRunner.Pause]
    split
    · simp
    · simp [List.count_cons]
  | resume =>
    simp only [SessionRunner.step, SessionRunner.Resume]
    split
    · simp
    · simp [List.count_cons]
  | complete =>
    simp only [SessionRunner.step, SessionRunner.Complete]
    split
    · rename_i h
      simp [h]
    · rename_i h
      simp only [Bool.not_eq_true] at h
      split
      · simp [h]
      · simp [h, List.count_cons]
  | stop =>
    simp only [SessionRunner.step, SessionRunner.Stop]
    split
    · simp
    · split
      · simp
      · simp [List.count_cons]
  | tick =>
    simp only [SessionRunner.step, SessionRunner.Tick]
    split
    · split
      · simp only [SessionRunner.Complete]
        split
        · rename_i h
          simp [h, List.count_cons]
        · rename_i h
          simp only [Bool.not_eq_true] at h
          split
          · simp [h, List.count_cons]
          · simp [h, List.count_cons]
      · simp [List.count_cons]
    · simp

/-- Helper: over any run, at most one `Completed` event is emitted,
with the budget accounting for an already-set flag. -/
theorem run_completed_budget (ops : List (SessionOp × Int)) (sr : SessionRunner) :
    ((sr.run ops).2.count SessionEvent.completed) +
      (if sr.completed = true then 1 else 0) ≤ 1 := by
  induction ops generalizing sr with
  | nil =>
    simp only [SessionRunner.run, List.count_nil]
    split <;> omega
  | cons p rest ih =>
    obtain ⟨op, now⟩ := p
    have h1 := step_completed_budget sr op now
    have h2 := ih (sr.step op now).1
    simp only [SessionRunner.run, List.count_append]
    cases h3 : ((sr.step op now).1).completed <;>
      cases h4 : sr.completed <;>
        rw [h3] at h1 h2 <;> rw [h4] at h1 <;> simp at h1 h2 ⊢ <;> omega

/-- C1: a `Complete` on an already-completed runner emits nothing and
changes nothing; `Complete` is idempotent (the second of two calls is a
no-op on the state and emits nothing); from a running state with an
open segment, `Complete` closes exactly one segment; and any operation
sequence from a fresh runner delivers at most one `Completed` event. -/
theorem complete_idempotent_once (sr : SessionRunner)
    (now now2 duration endTime : Int) (segs : List TimeSegment)
    (ops : List (SessionOp × Int)) :
    (sr.completed = true → sr.Complete now = (sr, [])) ∧
    ((sr.Complete now).1.Complete now2 = ((sr.Complete now).1, [])) ∧
    (sr.completed = false → lastOpen sr.segments = true →
      countClosed ((sr.Complete now).1.segments) = countClosed sr.segments + 1) ∧
    ((SessionRunner.new duration endTime segs).run ops).2.count
        SessionEvent.completed ≤ 1 := by
  refine ⟨?_, ?_, ?_, ?_⟩
  · intro h
    simp [SessionRunner.Complete, h]
  · have h := completed_after_complete sr now
    set X := (sr.Complete now).1 with hX
    simp [SessionRunner.Complete, h]
  · intro h hopen
    simp only [SessionRunner.Complete, h, Bool.false_eq_true, if_false]
    split
    · simp [countClosed_closeLast sr.segments now hopen]
    · simp [countClosed_closeLast sr.segments now hopen]
  · have h := run_completed_budget ops (SessionRunner.new duration endTime segs)
    simpa [SessionRunner.new] using h

/-- Witness for `complete_idempotent_once`: a completed runner and a
running runner with one open segment. -/
theorem complete_idempotent_once_witness :
    ((SessionRunner.new 9 0 []).Start 2).1.completed = false ∧
    lastOpen (((SessionRunner.new 9 0 []).Start 2).1).segments = true ∧
    countClosed (((((SessionRunner.new 9 0 []).Start 2).1).Complete 4).1).segments =
      countClosed (((SessionRunner.new 9 0 []).Start 2).1).segments + 1 :=
  ⟨by decide, by decide,
    (complete_idempotent_once (((SessionRunner.new 9 0 []).Start 2).1)
        4 5 9 0 [] []).2.2.1 (by decide) (by decide)⟩

/-- Helper: one poll emits commits with pairwise-distinct keys, none of
them already seen; the seen-set only grows and ends up containing every
emitted key. -/
theorem pollCommits_spec (cs : List (List Char)) (seen : List (List Char)) :
    ((pollCommits cs seen).1.map commitKey).Nodup ∧
    (∀ k ∈ (pollCommits cs seen).1.map commitKey, k ∉ seen) ∧
    (∀ k ∈ seen, k ∈ (pollCommits cs seen).2) ∧
    (∀ k ∈ (pollCommits cs seen).1.map commitKey, k ∈ (pollCommits cs seen).2) := by
  induction cs generalizing seen with
  | nil => simp [pollCommits]
  | cons c rest ih =>
    by_cases hc : commitKey c ∈ seen
    · simpa [pollCommits, hc] using ih seen
    · obtain ⟨ih1, ih2, ih3, ih4⟩ := ih (commitKey c :: seen)
      simp only [pollCommits, hc, if_false, List.map_cons]
      refine ⟨?_, ?_, ?_, ?_⟩
      · exact List.nodup_cons.mpr
          ⟨fun hmem => (ih2 _ hmem) (by simp), ih1⟩
      · intro k hk
        rcases List.mem_cons.mp hk with rfl | hk2
        · exact hc
        · intro hks
          exact (ih2 k hk2) (by simp [hks])
      · intro k hk
        exact ih3 k (by simp [hk])
      · intro k hk
        rcases List.mem_cons.mp hk with rfl | hk2
        · exact ih3 _ (by simp)
        · exact ih4 k hk2

/-- Helper: the whole poll loop emits commits with pairwise-distinct
keys, none already in the seen-set, and records every emitted key. -/
theorem runPolls_spec (polls : List (Option (List (List Char))))
    (seen : List (List Char)) :
    (((GitWatcher.runPolls polls seen).1).map commitKey).Nodup ∧
    (∀ k ∈ ((GitWatcher.runPolls polls seen).1).map commitKey, k ∉ seen) ∧
    (∀ k ∈ seen, k ∈ (GitWatcher.runPolls polls seen).2) ∧
    (∀ k ∈ ((GitWatcher.runPolls polls seen).1).map commitKey,
      k ∈ (GitWatcher.runPolls polls seen).2) := by
  induction polls generalizing seen with
  | nil => simp [GitWatcher.runPolls]
  | cons p rest ih =>
    cases p with
    | none => simpa [GitWatcher.runPolls] using ih seen
    | some cs =>
      obtain ⟨hp1, hp2, hp3, hp4⟩ := pollCommits_spec cs seen
      obtain ⟨ih1, ih2, ih3, ih4⟩ := ih (pollCommits cs seen).2
      simp only [GitWatcher.runPolls, List.map_append]
      refine ⟨?_, ?_, ?_, ?_⟩
      · refine List.Nodup.append hp1 ih1 ?_
        intro k hk1 hk2
        exact (ih2 k hk2) (hp4 k hk1)
      · intro k hk
        rcases List.mem_append.mp hk with hk1 | hk2
        · exact hp2 k hk1
        · intro hks
          exact (ih2 k hk2) (hp3 k hks)
      · intro k hk
        exact ih3 k (hp3 k hk)
      · intro k hk
        rcases List.mem_append.mp hk with hk1 | hk2
        · exact ih3 k (hp4 k hk1)
        · exact ih4 k hk2

/-- C9: over the lifetime of one watcher (which starts with an empty
`lastHashes` set), the commits sent on the commit channel have
pairwise-distinct de-duplication keys — a commit whose key was already
emitted is never emitted again, even when consecutive overlapping polls
both contain it, and error polls do not disturb the tracking. -/
theorem gitWatcher_dedup (polls : List (Option (List (List Char)))) :
    (((GitWatcher.runPolls polls []).1).map commitKey).Nodup :=
  (runPolls_spec polls []).1

/-- Helper: splitting at a separator just after a separator-free chunk. -/
theorem splitOnChar_append_sep (sep : Char) (l rest : List Char) (h : sep ∉ l) :
    splitOnChar sep (l ++ sep :: rest) = l :: splitOnChar sep rest := by
  induction l with
  | nil => simp [splitOnChar]
  | cons c cs ih =>
    have hc : ¬(c = sep) := by
      intro hcc
      exact h (by simp [hcc])
    have h2 : sep ∉ cs := fun hcs => h (by simp [hcs])
    simp only [List.cons_append, splitOnChar, if_neg hc, List.append_eq]
    rw [ih h2]

/-- Helper: splitting the '\n'-joined lines recovers the lines plus the
empty chunk after the final newline. -/
theorem splitNL_joinNL (lines : List (List Char))
    (h : ∀ l ∈ lines, ('\n' : Char) ∉ l) :
    splitNL (joinNL lines) = lines ++ [[]] := by
  induction lines with
  | nil => rfl
  | cons l ls ih =>
    have h1 : ('\n' : Char) ∉ l := h l (by simp)
    have h2 : ∀ x ∈ ls, ('\n' : Char) ∉ x := fun x hx => h x (by simp [hx])
    show splitOnChar '\n' (l ++ '\n' :: joinNL ls) = (l :: ls) ++ [[]]
    rw [splitOnChar_append_sep _ _ _ h1]
    have ih2 := ih h2
    unfold splitNL at ih2
    rw [ih2]
    rfl

/-- Helper: `dropCR` is the identity on lines without a trailing
carriage return. -/
theorem map_dropCR_eq (lines : List (List Char))
    (h : ∀ l ∈ lines, l.getLast? ≠ some '\r') :
    lines.map dropCR = lines := by
  induction lines with
  | nil => rfl
  | cons l ls ih =>
    simp only [List.map_cons]
    rw [ih (fun x hx => h x (by simp [hx]))]
    have hl : dropCR l = l := by simp [dropCR, h l (by simp)]
    rw [hl]

/-- Helper: the scanner's token sequence over '\n'-joined, \r-free
lines is exactly those lines. -/
theorem scanTokens_joinNL (lines : List (List Char))
    (hn : ∀ l ∈ lines, ('\n' : Char) ∉ l)
    (hr : ∀ l ∈ lines, l.getLast? ≠ some '\r') :
    scanTokens (joinNL lines) = lines := by
  unfold scanTokens
  rw [splitNL_joinNL lines hn]
  simp only [List.getLast?_concat, if_pos rfl, List.dropLast_concat]
  exact map_dropCR_eq lines hr

/-- Helper: the empty chunk after the final newline never matches a
task line. -/
theorem isTaskLine_nil (desc : List Char) : isTaskLine [] desc = false := rfl

/-- Helper: the trailing empty chunk does not affect the located task
line index. -/
theorem findIdx?_isTaskLine_concat (desc : List Char) (lines : List (List Char)) :
    List.findIdx? (fun l => isTaskLine l desc) (lines ++ [[]]) =
      List.findIdx? (fun l => isTaskLine l desc) lines := by
  rw [List.findIdx?_append]
  have hnil : List.findIdx? (fun l => isTaskLine l desc) [[]] = none := by
    simp [List.findIdx?_cons, isTaskLine_nil]
  rw [hnil]
  simp

/-- C2 (amended): on a document that is a concatenation of
'\n'-terminated lines none of which carries a trailing carriage
return, rewriting a found task touches only that task's line: the
output is byte-for-byte the lines before the matched index, then the
replacement block, then the lines after it — so re-parsing the output
finds every other line (and hence every other task) byte-identical. -/
theorem markTask_frame (lines : List (List Char)) (desc : List Char)
    (dur : Int) (commits : List (List Char)) (i : Nat) (out : List Char)
    (hwf : ∀ l ∈ lines, (('\n' : Char) ∉ l) ∧ l.getLast? ≠ some '\r')
    (hfind : List.findIdx? (fun l => isTaskLine l desc) lines = some i)
    (hout : MarkTaskAsCompleted (joinNL lines) desc dur commits = some out) :
    out = joinNL (lines.take i) ++
      joinNL (newTaskLines (lines.getD i []) dur commits) ++
      joinNL (lines.drop (i + 1)) := by
  have hn : ∀ l ∈ lines, ('\n' : Char) ∉ l := fun l hl => (hwf l hl).1
  have hr : ∀ l ∈ lines, l.getLast? ≠ some '\r' := fun l hl => (hwf l hl).2
  have hi : i < lines.length := (List.findIdx?_eq_some_iff_findIdx_eq.mp hfind).1
  simp only [MarkTaskAsCompleted, splitNL_joinNL lines hn,
    scanTokens_joinNL lines hn hr, findIdx?_isTaskLine_concat, hfind] at hout
  rw [if_pos hi, List.getD_append lines [[]] [] i hi] at hout
  exact (Option.some.inj hout).symm

/-- Witness for `markTask_frame`: a two-line document whose second line
is the task. -/
theorem markTask_frame_witness :
    ("x\n- [x] T @1m\n".toList) =
      joinNL (([("x".toList), ("- [ ] T @1m".toList)]).take 1) ++
      joinNL (newTaskLines (([("x".toList), ("- [ ] T @1m".toList)]).getD 1 []) 0 []) ++
      joinNL (([("x".toList), ("- [ ] T @1m".toList)]).drop 2) :=
  markTask_frame [("x".toList), ("- [ ] T @1m".toList)] ("T".toList) 0 [] 1
    ("x\n- [x] T @1m\n".toList) (by decide) (by decide) (by decide)
